import Mathlib

/-!
Verification of the analysis driver of the Password-Guessing-Framework
(src/pgf/analysis/analysis.py).  The embedding models `Analysis.execute`,
`Analysis.handle_close` and `Analysis.kill_guesser` over explicit state.
Python strings are modelled as `List Char`; the fixed-size candidate array
initialised to `[None] * analysis_interval` is a `List (Option (List Char))`.
Calls to the external analysis strategy (`process_candidates`,
`process_status_line`, `gen_report`) and to the process layer
(`kill_guesser`) are recorded as an ordered event trace.
-/

/-- One observable call made by the driver, in program order. -/
inductive Event where
  | candidates (batch : List (Option (List Char)))
  | statusLine (line : List Char)
  | kill
  | report
deriving DecidableEq, Repr

/-- `received_candidates[self.index] = candidate[:-1]` (analysis.py line 120):
Python `candidate[:-1]` drops the final character unconditionally
(the empty string stays empty), and the slot at the write index is set. -/
def storeCandidate (buf : List (Option (List Char))) (i : Nat) (line : List Char) :
    List (Option (List Char)) :=
  buf.set i (some line.dropLast)

/-- Spec-side definition (for comparison only): the candidate with a trailing
newline stripped when present, and unchanged otherwise. -/
def specStripNewline (l : List Char) : List Char :=
  if l.getLast? = some '\n' then l.dropLast else l

/-- `[0-9]` of the Python regexes. -/
def isDigitChar (c : Char) : Bool := '0' ≤ c && c ≤ '9'

/-- Python 2 regex `\s`: one of space, tab, newline, carriage return,
vertical tab, form feed. -/
def isSpaceChar (c : Char) : Bool :=
  c == ' ' || c == '\t' || c == '\n' || c == '\r' || c == '\x0b' || c == '\x0c'

/-- `re.compile('^[0-9]*g\\s[0-9]*p').match(line)` (analysis.py line 115):
a maximal run of digits, then `g`, one whitespace character, a maximal run
of digits, then `p`, anchored at the start of the line.  (Backtracking over
`[0-9]*` cannot help: every shorter run is followed by a digit, which is
neither `g` nor `p`, so only the maximal run can match.) -/
def statusLineMatch (l : List Char) : Bool :=
  match l.dropWhile isDigitChar with
  | 'g' :: c :: rest =>
    isSpaceChar c &&
      (match rest.dropWhile isDigitChar with
       | 'p' :: _ => true
       | _ => false)
  | _ => false

/-- Match of `[0-9]*p` anchored at the head of `l`: succeeds exactly when the
first non-digit character is `p`, yielding the digit run plus the `p`. -/
def pMatchAt (l : List Char) : Option (List Char) :=
  match l.dropWhile isDigitChar with
  | 'p' :: _ => some (l.takeWhile isDigitChar ++ ['p'])
  | _ => none

/-- `re.compile('[0-9]*p').findall(line)[0]` (analysis.py lines 116, 147):
the leftmost match of `[0-9]*p` in the line. -/
def firstPMatch : List Char → Option (List Char)
  | [] => none
  | c :: rest =>
    match pMatchAt (c :: rest) with
    | some m => some m
    | none => firstPMatch rest

/-- Python `int` on a string of decimal digits. -/
def parseNat (l : List Char) : Nat :=
  l.foldl (fun acc c => acc * 10 + (c.toNat - '0'.toNat)) 0

/-- `temp = temp[:-4] + '000'` (analysis.py line 148): drop the last four
characters (all of them, if the string is shorter) and append `000`. -/
def coarsen (m : List Char) : List Char :=
  m.take (m.length - 4) ++ ['0', '0', '0']

/-- The coarse candidates-processed count parsed from a JtR status line
(analysis.py lines 147-149).  In the program this extraction runs only under
the `status_line_re` guard, which guarantees `findall` returns a match; the
`getD []` default is never reached on that path. -/
def countOfLine (l : List Char) : Nat :=
  parseNat (coarsen ((firstPMatch l).getD []))

/-- `a == b` for the leading fragment: `pat` occurs at the head of `s`. -/
def isPre : List Char → List Char → Bool
  | [], _ => true
  | _ :: _, [] => false
  | a :: as, b :: bs => a == b && isPre as bs

/-- Python substring test `pat in s`. -/
def containsSub (pat : List Char) : List Char → Bool
  | [] => isPre pat []
  | c :: rest => isPre pat (c :: rest) || containsSub pat rest

/-- The literal `'Session completed'` of analysis.py line 138. -/
def sessionCompletedPat : List Char := String.toList "Session completed"

/-- Classification of one hash-mode input line, mirroring the branch order of
the hash loop (analysis.py lines 137-149): the progress pattern is tested
first, then the `Session completed` substring. -/
inductive LineClass where
  | Progress (count : Nat)
  | SessionComplete
  | Ignored
deriving DecidableEq, Repr

def classify (l : List Char) : LineClass :=
  if statusLineMatch l then LineClass.Progress (countOfLine l)
  else if containsSub sessionCompletedPat l then LineClass.SessionComplete
  else LineClass.Ignored

/-- State of the plaintext loop of `Analysis.execute` (lines 112-132):
the candidate array, write index, lifetime counter, the list of successive
counter values (for the monotonicity claims), the event trace, and whether
`kill_guesser` fired. -/
structure PTState where
  received_candidates : List (Option (List Char))
  index : Nat
  candidate_counter : Nat
  trace : List Nat
  events : List Event
  killed : Bool
deriving Repr

/-- The `for candidate in sys.stdin` loop of analysis.py lines 119-130:
store the newline-stripped candidate, bump counter and index, break with a
kill when the counter reaches a configured ceiling exactly, flush the full
array and reset the index when it reaches the interval. -/
def ptLoop (n : Nat) (ceiling : Option Nat) :
    List (List Char) → PTState → PTState
  | [], s => s
  | line :: rest, s =>
    let buf := storeCandidate s.received_candidates s.index line
    let counter := s.candidate_counter + 1
    let idx := s.index + 1
    if ceiling = some counter then
      { s with received_candidates := buf, index := idx, candidate_counter := counter,
               trace := s.trace ++ [counter],
               events := s.events ++ [Event.kill], killed := true }
    else if idx = n then
      ptLoop n ceiling rest
        { s with received_candidates := buf, index := 0, candidate_counter := counter,
                 trace := s.trace ++ [counter],
                 events := s.events ++ [Event.candidates buf] }
    else
      ptLoop n ceiling rest
        { s with received_candidates := buf, index := idx, candidate_counter := counter,
                 trace := s.trace ++ [counter] }

/-- The deletion loop of `handle_close` (analysis.py lines 205-206):
`for i in range(analysis_interval - 1, index - 1, -1): del received_candidates[i]`,
i.e. `n - idx` deletions at positions `idx + k` for `k = n - idx - 1, ..., 0`. -/
def trimAux : Nat → List (Option (List Char)) → Nat → List (Option (List Char))
  | 0, buf, _ => buf
  | k + 1, buf, idx => trimAux k (buf.eraseIdx (idx + k)) idx

def trimBuf (buf : List (Option (List Char))) (n idx : Nat) : List (Option (List Char)) :=
  trimAux (n - idx) buf idx

/-- `Analysis.handle_close` for plaintext input (analysis.py lines 202-212):
flush the trimmed remainder when the write index is positive, then
`gen_report`. -/
def handle_close_pt (n : Nat) (s : PTState) : PTState :=
  let s1 :=
    if 0 < s.index then
      { s with
        received_candidates := trimBuf s.received_candidates n s.index,
        index := 0,
        events := s.events ++ [Event.candidates (trimBuf s.received_candidates n s.index)] }
    else s
  { s1 with events := s1.events ++ [Event.report] }

/-- `self.received_candidates = [None] * self.analysis_interval` etc.
(analysis.py lines 112-114). -/
def ptInitState (n : Nat) : PTState :=
  { received_candidates := List.replicate n none, index := 0, candidate_counter := 0,
    trace := [], events := [], killed := false }

/-- `Analysis.execute` for plaintext input: the read loop followed by
`handle_close()`. -/
def execute_plaintext (n : Nat) (ceiling : Option Nat) (lines : List (List Char)) :
    PTState :=
  handle_close_pt n (ptLoop n ceiling lines (ptInitState n))

/-- State of the hash-mode loop: lifetime counter, its successive assigned
values, and the event trace. -/
structure HState where
  candidate_counter : Nat
  trace : List Nat
  events : List Event
deriving Repr

/-- Outcome of a hash-mode run: normal completion, or the Python
`UnboundLocalError` raised at `handle_close(last_line=line)` when the loop
variable `line` was never bound (empty input stream). -/
inductive HOut where
  | ok (s : HState)
  | err (s : HState)
deriving Repr

/-- `(self.terminate_guessing is not None) and (self.candidate_counter >= self.terminate_guessing)`
(analysis.py line 150). -/
def hashCeilingHit : Option Nat → Nat → Bool
  | none, _ => false
  | some c, k => c ≤ k

/-- The `for line in sys.stdin` loop of analysis.py lines 135-155 together
with the `handle_close` calls it reaches.  The second argument tracks the
Python loop variable `line` (the last line read, `none` before the first
iteration).  Branches, in source order: a non-matching line is either the
`Session completed` terminator (kill if a ceiling is configured, then
`handle_close()` with no last line, then return) or ignored; a matching line
updates the counter from the parsed coarse count, then either breaks with a
kill (falling through to `handle_close(last_line=line)`, which forwards that
line) or is forwarded and the loop continues.  At natural end of stream
`handle_close(last_line=line)` forwards the last line read, and raises
`UnboundLocalError` when no line was ever read. -/
def hashLoop (ceiling : Option Nat) :
    List (List Char) → Option (List Char) → HState → HOut
  | [], last, s =>
    match last with
    | none => HOut.err s
    | some l =>
      HOut.ok { s with events := s.events ++ [Event.statusLine l, Event.report] }
  | line :: rest, _last, s =>
    if statusLineMatch line = false then
      if containsSub sessionCompletedPat line then
        HOut.ok { s with
          events := s.events ++
            (if ceiling.isSome then [Event.kill] else []) ++ [Event.report] }
      else
        hashLoop ceiling rest (some line) s
    else
      let cnt := countOfLine line
      let s1 : HState :=
        { s with candidate_counter := cnt, trace := s.trace ++ [cnt] }
      if hashCeilingHit ceiling cnt then
        HOut.ok { s1 with
          events := s1.events ++ [Event.kill, Event.statusLine line, Event.report] }
      else
        hashLoop ceiling rest (some line)
          { s1 with events := s1.events ++ [Event.statusLine line] }

def hashInitState : HState :=
  { candidate_counter := 0, trace := [], events := [] }

/-- `Analysis.execute` for hash input. -/
def execute_hash (ceiling : Option Nat) (lines : List (List Char)) : HOut :=
  hashLoop ceiling lines none hashInitState

def eventsOf : HOut → List Event
  | HOut.ok s => s.events
  | HOut.err s => s.events

def traceOf : HOut → List Nat
  | HOut.ok s => s.trace
  | HOut.err s => s.trace

/-- The batches handed to `process_candidates`, in order. -/
def candidateBatches (evs : List Event) : List (List (Option (List Char))) :=
  evs.filterMap fun e =>
    match e with
    | Event.candidates b => some b
    | _ => none

/-- Total number of buffer slots handed to `process_candidates`. -/
def totalForwarded (evs : List Event) : Nat :=
  ((candidateBatches evs).map List.length).sum

/-- Environment of one `kill_guesser` call (analysis.py lines 158-194):
whether `psutil.Process(pid)` succeeds, whether the `children()` enumeration
itself succeeds, the descendant pids it returns, and which `os.kill` calls
raise. -/
structure KillConfig where
  lookupOk : Bool
  childrenOk : Bool
  descendants : List Nat
  killFails : Nat → Bool

/-- The `for child in children: os.kill(child.pid, SIGKILL)` loop
(analysis.py lines 185-187).  An `OSError` from `os.kill` is not caught by
the surrounding `except psutil.NoSuchProcess`, so it aborts the loop;
the result is the list of pids for which a kill was attempted plus an
aborted flag. -/
def attemptKills (fails : Nat → Bool) : List Nat → List Nat × Bool
  | [] => ([], false)
  | p :: rest =>
    if fails p then ([p], true)
    else
      let r := attemptKills fails rest
      (p :: r.1, r.2)

/-- `Analysis.kill_guesser`, returning the pids for which `os.kill` was
attempted, in order.  If the `psutil.Process` lookup fails, the exception is
swallowed but `p` stays unbound, so `p.children(...)` raises
`UnboundLocalError` into the outer handler and nothing is killed.  If
`children()` raises `psutil.NoSuchProcess`, that is caught and the root kill
is still attempted.  If an individual child kill raises, the exception
escapes to the outer `except Exception` handler and the remaining kills,
including the root kill, are skipped. -/
def kill_guesser (root : Nat) (cfg : KillConfig) : List Nat :=
  if cfg.lookupOk = false then []
  else if cfg.childrenOk = false then [root]
  else
    let r := attemptKills cfg.killFails cfg.descendants
    if r.2 then r.1 else r.1 ++ [root]

/-- The progress lines whose parsed coarse count the hash loop assigns to
`candidate_counter`, in order: every line matching the status pattern that
the loop reaches, up to and including the line that fires the ceiling, and
stopping at a `Session completed` line. -/
def processedStatus (ceiling : Option Nat) : List (List Char) → List (List Char)
  | [] => []
  | line :: rest =>
    if statusLineMatch line = false then
      if containsSub sessionCompletedPat line then []
      else processedStatus ceiling rest
    else if hashCeilingHit ceiling (countOfLine line) then [line]
    else line :: processedStatus ceiling rest

/-- The example JtR status line of the specification (section 8). -/
def exJtrLine : List Char :=
  String.toList "736g 4008p 0:00:00:04 152.0g/s 828.0p/s 828.0c/s 885086C/s carama..marcia"

example : statusLineMatch (String.toList "736g 4008p 0:00:00:04 152.0g/s") = true := by decide
example : countOfLine (String.toList "736g 4008p x") = 4000 := by decide
example : classify (String.toList "Session completed") = LineClass.SessionComplete := by decide
example : (execute_plaintext 2 none [String.toList "a\n", String.toList "b\n", String.toList "c\n"]).events =
    [Event.candidates [some ['a'], some ['b']], Event.candidates [some ['c']], Event.report] := by decide

theorem trimAux_eq_take :
    ∀ (k : Nat) (buf : List (Option (List Char))) (idx : Nat),
      buf.length = idx + k → trimAux k buf idx = buf.take idx := by
  intro k
  induction k with
  | zero =>
    intro buf idx h
    have h0 : buf.length = idx := by omega
    simp only [trimAux]
    rw [← h0, List.take_length]
  | succ k ih =>
    intro buf idx h
    have hlt : idx + k < buf.length := by omega
    have hlen : (buf.eraseIdx (idx + k)).length = idx + k := by
      have := List.length_eraseIdx_add_one hlt
      omega
    simp only [trimAux]
    rw [ih _ _ hlen, List.eraseIdx_eq_take_drop_succ, List.take_append_eq_append_take]
    have h1 : (List.take (idx + k) buf).length = idx + k := by
      rw [List.length_take]
      omega
    rw [h1, List.take_take]
    have h2 : idx - (idx + k) = 0 := by omega
    have h3 : idx ⊓ (idx + k) = idx := by omega
    rw [h2, h3]
    simp

theorem trimBuf_eq_take (buf : List (Option (List Char))) (n idx : Nat)
    (h : buf.length = n) (h2 : idx ≤ n) : trimBuf buf n idx = buf.take idx :=
  trimAux_eq_take (n - idx) buf idx (by omega)

theorem storeCandidate_take_succ (l : List (Option (List Char))) (i : Nat)
    (line : List Char) (h : i < l.length) :
    (storeCandidate l i line).take (i + 1) = l.take i ++ [some line.dropLast] := by
  unfold storeCandidate
  rw [List.set_eq_take_cons_drop _ h, List.take_append_eq_append_take]
  have h1 : (List.take i l).length = i := by
    rw [List.length_take]; omega
  rw [h1, List.take_take]
  have h2 : (i + 1) ⊓ i = i := by omega
  have h3 : i + 1 - i = 1 := by omega
  rw [h2, h3]
  simp

theorem storeCandidate_full (l : List (Option (List Char))) (i : Nat)
    (line : List Char) (h : l.length = i + 1) :
    storeCandidate l i line = l.take i ++ [some line.dropLast] := by
  unfold storeCandidate
  rw [List.set_eq_take_cons_drop _ (by omega), ← h, List.drop_length]

theorem length_storeCandidate (l : List (Option (List Char))) (i : Nat)
    (line : List Char) : (storeCandidate l i line).length = l.length := by
  unfold storeCandidate
  rw [List.length_set]

theorem candidateBatches_append (a b : List Event) :
    candidateBatches (a ++ b) = candidateBatches a ++ candidateBatches b := by
  unfold candidateBatches
  rw [List.filterMap_append]

@[simp] theorem candidateBatches_nil : candidateBatches [] = [] := rfl

@[simp] theorem candidateBatches_kill : candidateBatches [Event.kill] = [] := rfl

@[simp] theorem candidateBatches_report : candidateBatches [Event.report] = [] := rfl

@[simp] theorem candidateBatches_statusLine (l : List Char) :
    candidateBatches [Event.statusLine l] = [] := rfl

@[simp] theorem candidateBatches_candidates (b : List (Option (List Char))) :
    candidateBatches [Event.candidates b] = [b] := rfl

theorem ptLoop_no_trigger (n : Nat) (ceiling : Option Nat) :
    ∀ (lines : List (List Char)) (s : PTState),
      s.received_candidates.length = n → s.index < n →
      (∀ c, ceiling = some c →
        ¬ (s.candidate_counter < c ∧ c ≤ s.candidate_counter + lines.length)) →
      ∃ B,
        candidateBatches (ptLoop n ceiling lines s).events
            = candidateBatches s.events ++ B ∧
        B.flatten ++ (ptLoop n ceiling lines s).received_candidates.take
              (ptLoop n ceiling lines s).index
            = s.received_candidates.take s.index
              ++ lines.map (fun l => some l.dropLast) ∧
        B.length = (s.index + lines.length) / n ∧
        (ptLoop n ceiling lines s).index = (s.index + lines.length) % n ∧
        (ptLoop n ceiling lines s).received_candidates.length = n ∧
        (ptLoop n ceiling lines s).candidate_counter
            = s.candidate_counter + lines.length ∧
        (ptLoop n ceiling lines s).killed = s.killed := by
  intro lines
  induction lines with
  | nil =>
    intro s hbuf hidx hnt
    refine ⟨[], ?_, ?_, ?_, ?_, ?_, ?_, ?_⟩
    · simp [ptLoop]
    · simp [ptLoop]
    · simp [ptLoop, Nat.div_eq_of_lt hidx]
    · simp [ptLoop, Nat.mod_eq_of_lt hidx]
    · simp [ptLoop, hbuf]
    · simp [ptLoop]
    · simp [ptLoop]
  | cons line rest ih =>
    intro s hbuf hidx hnt
    have hntrig : ¬ (ceiling = some (s.candidate_counter + 1)) := by
      intro hc
      exact hnt _ hc ⟨by omega, by simp only [List.length_cons]; omega⟩
    by_cases hfull : s.index + 1 = n
    · have step : ptLoop n ceiling (line :: rest) s =
          ptLoop n ceiling rest
            { s with
              received_candidates := storeCandidate s.received_candidates s.index line,
              index := 0,
              candidate_counter := s.candidate_counter + 1,
              trace := s.trace ++ [s.candidate_counter + 1],
              events := s.events ++
                [Event.candidates (storeCandidate s.received_candidates s.index line)] } := by
        simp only [ptLoop]
        rw [if_neg hntrig, if_pos hfull]
      obtain ⟨B, h1, h2, h3, h4, h5, h6, h7⟩ :=
        ih { s with
              received_candidates := storeCandidate s.received_candidates s.index line,
              index := 0,
              candidate_counter := s.candidate_counter + 1,
              trace := s.trace ++ [s.candidate_counter + 1],
              events := s.events ++
                [Event.candidates (storeCandidate s.received_candidates s.index line)] }
          (by simp [length_storeCandidate, hbuf]) (by dsimp only; omega)
          (by
            intro c hc
            have := hnt c hc
            dsimp only
            simp only [List.length_cons] at this ⊢
            omega)
      dsimp only at h1 h2 h3 h4 h5 h6 h7
      rw [step]
      refine ⟨storeCandidate s.received_candidates s.index line :: B, ?_, ?_, ?_, ?_, h5, ?_, h7⟩
      · rw [h1, candidateBatches_append]
        simp
      · simp only [List.take_zero, List.nil_append] at h2
        simp only [List.flatten_cons, List.map_cons, List.append_assoc]
        rw [h2, storeCandidate_full _ _ _ (by omega)]
        simp
      · simp only [Nat.zero_add] at h3
        simp only [List.length_cons]
        have e1 : s.index + (rest.length + 1) = rest.length + n := by omega
        rw [e1, Nat.add_div_right _ (by omega), h3]
      · simp only [Nat.zero_add] at h4
        simp only [List.length_cons]
        have e1 : s.index + (rest.length + 1) = n + rest.length := by omega
        rw [h4, e1, Nat.add_mod_left]
      · simp only [List.length_cons]
        omega
    · have step : ptLoop n ceiling (line :: rest) s =
          ptLoop n ceiling rest
            { s with
              received_candidates := storeCandidate s.received_candidates s.index line,
              index := s.index + 1,
              candidate_counter := s.candidate_counter + 1,
              trace := s.trace ++ [s.candidate_counter + 1] } := by
        simp only [ptLoop]
        rw [if_neg hntrig, if_neg hfull]
      obtain ⟨B, h1, h2, h3, h4, h5, h6, h7⟩ :=
        ih { s with
              received_candidates := storeCandidate s.received_candidates s.index line,
              index := s.index + 1,
              candidate_counter := s.candidate_counter + 1,
              trace := s.trace ++ [s.candidate_counter + 1] }
          (by simp [length_storeCandidate, hbuf]) (by dsimp only; omega)
          (by
            intro c hc
            have := hnt c hc
            dsimp only
            simp only [List.length_cons] at this ⊢
            omega)
      dsimp only at h1 h2 h3 h4 h5 h6 h7
      rw [step]
      refine ⟨B, h1, ?_, ?_, ?_, h5, ?_, h7⟩
      · simp only [List.map_cons]
        rw [h2, storeCandidate_take_succ _ _ _ (by omega)]
        simp
      · simp only [List.length_cons]
        rw [h3]
        congr 1
        omega
      · simp only [List.length_cons]
        rw [h4]
        congr 1
        omega
      · simp only [List.length_cons]
        omega

theorem ptLoop_trigger (n : Nat) (c : Nat) :
    ∀ (lines : List (List Char)) (s : PTState),
      s.received_candidates.length = n → s.index < n →
      s.candidate_counter < c → c ≤ s.candidate_counter + lines.length →
      (ptLoop n (some c) lines s).killed = true ∧
      (ptLoop n (some c) lines s).candidate_counter = c ∧
      (ptLoop n (some c) lines s).received_candidates.length = n ∧
      0 < (ptLoop n (some c) lines s).index ∧
      (ptLoop n (some c) lines s).index ≤ n ∧
      ∃ B, candidateBatches (ptLoop n (some c) lines s).events
            = candidateBatches s.events ++ B ∧
        (B.map List.length).sum + (ptLoop n (some c) lines s).index
          = s.index + (c - s.candidate_counter) := by
  intro lines
  induction lines with
  | nil =>
    intro s hbuf hidx hlow hhigh
    simp only [List.length_nil] at hhigh
    omega
  | cons line rest ih =>
    intro s hbuf hidx hlow hhigh
    by_cases htrig : c = s.candidate_counter + 1
    · have step : ptLoop n (some c) (line :: rest) s =
          { s with
            received_candidates := storeCandidate s.received_candidates s.index line,
            index := s.index + 1,
            candidate_counter := s.candidate_counter + 1,
            trace := s.trace ++ [s.candidate_counter + 1],
            events := s.events ++ [Event.kill], killed := true } := by
        simp only [ptLoop]
        rw [if_pos (by rw [htrig])]
      rw [step]
      refine ⟨rfl, by dsimp only; omega, by dsimp only; simp [length_storeCandidate, hbuf],
        by dsimp only; omega, by dsimp only; omega, [], ?_, ?_⟩
      · dsimp only
        rw [candidateBatches_append]
        simp
      · dsimp only
        simp only [List.map_nil, List.sum_nil, Nat.zero_add]
        omega
    · have hntrig : ¬ ((some c : Option Nat) = some (s.candidate_counter + 1)) := by
        simp
        omega
      by_cases hfull : s.index + 1 = n
      · have step : ptLoop n (some c) (line :: rest) s =
            ptLoop n (some c) rest
              { s with
                received_candidates := storeCandidate s.received_candidates s.index line,
                index := 0,
                candidate_counter := s.candidate_counter + 1,
                trace := s.trace ++ [s.candidate_counter + 1],
                events := s.events ++
                  [Event.candidates (storeCandidate s.received_candidates s.index line)] } := by
          simp only [ptLoop]
          rw [if_neg hntrig, if_pos hfull]
        obtain ⟨g1, g2, g3, g4, g5, B, h1, h2⟩ :=
          ih { s with
                received_candidates := storeCandidate s.received_candidates s.index line,
                index := 0,
                candidate_counter := s.candidate_counter + 1,
                trace := s.trace ++ [s.candidate_counter + 1],
                events := s.events ++
                  [Event.candidates (storeCandidate s.received_candidates s.index line)] }
            (by simp [length_storeCandidate, hbuf]) (by dsimp only; omega)
            (by dsimp only; omega)
            (by dsimp only; simp only [List.length_cons] at hhigh; omega)
        dsimp only at g1 g2 g3 g4 g5 h1 h2
        rw [step]
        refine ⟨g1, g2, g3, g4, g5,
          storeCandidate s.received_candidates s.index line :: B, ?_, ?_⟩
        · rw [h1, candidateBatches_append]
          simp
        · simp only [List.map_cons, List.sum_cons, length_storeCandidate, hbuf]
          omega
      · have step : ptLoop n (some c) (line :: rest) s =
            ptLoop n (some c) rest
              { s with
                received_candidates := storeCandidate s.received_candidates s.index line,
                index := s.index + 1,
                candidate_counter := s.candidate_counter + 1,
                trace := s.trace ++ [s.candidate_counter + 1] } := by
          simp only [ptLoop]
          rw [if_neg hntrig, if_neg hfull]
        obtain ⟨g1, g2, g3, g4, g5, B, h1, h2⟩ :=
          ih { s with
                received_candidates := storeCandidate s.received_candidates s.index line,
                index := s.index + 1,
                candidate_counter := s.candidate_counter + 1,
                trace := s.trace ++ [s.candidate_counter + 1] }
            (by simp [length_storeCandidate, hbuf]) (by dsimp only; omega)
            (by dsimp only; omega)
            (by dsimp only; simp only [List.length_cons] at hhigh; omega)
        dsimp only at g1 g2 g3 g4 g5 h1 h2
        rw [step]
        exact ⟨g1, g2, g3, g4, g5, B, h1, by omega⟩

theorem ceil_div_split (n m : Nat) (hn : 0 < n) :
    (m + n - 1) / n = m / n + if m % n = 0 then 0 else 1 := by
  have hm : n * (m / n) + m % n = m := Nat.div_add_mod m n
  have hr : m % n < n := Nat.mod_lt m hn
  rcases Nat.eq_zero_or_pos (m % n) with h0 | h0
  · rw [if_pos h0]
    have e : m + n - 1 = n * (m / n) + (n - 1) := by
      omega
    rw [e, Nat.mul_add_div hn, Nat.div_eq_of_lt (show n - 1 < n by omega)]
  · rw [if_neg (by omega)]
    have e : m + n - 1 = n * (m / n + 1) + (m % n - 1) := by
      rw [Nat.mul_add, Nat.mul_one]
      omega
    rw [e, Nat.mul_add_div hn, Nat.div_eq_of_lt (show m % n - 1 < n by omega)]

theorem ptLoop_events_no_report (n : Nat) (ceiling : Option Nat) :
    ∀ (lines : List (List Char)) (s : PTState),
      ∃ t, (ptLoop n ceiling lines s).events = s.events ++ t ∧
        Event.report ∉ t := by
  intro lines
  induction lines with
  | nil =>
    intro s
    exact ⟨[], by simp [ptLoop], by simp⟩
  | cons line rest ih =>
    intro s
    by_cases htrig : ceiling = some (s.candidate_counter + 1)
    · have step : ptLoop n ceiling (line :: rest) s =
          { s with
            received_candidates := storeCandidate s.received_candidates s.index line,
            index := s.index + 1,
            candidate_counter := s.candidate_counter + 1,
            trace := s.trace ++ [s.candidate_counter + 1],
            events := s.events ++ [Event.kill], killed := true } := by
        simp only [ptLoop]
        rw [if_pos htrig]
      rw [step]
      exact ⟨[Event.kill], rfl, by simp⟩
    · by_cases hfull : s.index + 1 = n
      · have step : ptLoop n ceiling (line :: rest) s =
            ptLoop n ceiling rest
              { s with
                received_candidates := storeCandidate s.received_candidates s.index line,
                index := 0,
                candidate_counter := s.candidate_counter + 1,
                trace := s.trace ++ [s.candidate_counter + 1],
                events := s.events ++
                  [Event.candidates (storeCandidate s.received_candidates s.index line)] } := by
          simp only [ptLoop]
          rw [if_neg htrig, if_pos hfull]
        obtain ⟨t, h1, h2⟩ :=
          ih { s with
                received_candidates := storeCandidate s.received_candidates s.index line,
                index := 0,
                candidate_counter := s.candidate_counter + 1,
                trace := s.trace ++ [s.candidate_counter + 1],
                events := s.events ++
                  [Event.candidates (storeCandidate s.received_candidates s.index line)] }
        dsimp only at h1
        rw [step]
        refine ⟨Event.candidates (storeCandidate s.received_candidates s.index line) :: t,
          ?_, ?_⟩
        · rw [h1, List.append_assoc]
          rfl
        · simp [h2]
      · have step : ptLoop n ceiling (line :: rest) s =
            ptLoop n ceiling rest
              { s with
                received_candidates := storeCandidate s.received_candidates s.index line,
                index := s.index + 1,
                candidate_counter := s.candidate_counter + 1,
                trace := s.trace ++ [s.candidate_counter + 1] } := by
          simp only [ptLoop]
          rw [if_neg htrig, if_neg hfull]
        obtain ⟨t, h1, h2⟩ :=
          ih { s with
                received_candidates := storeCandidate s.received_candidates s.index line,
                index := s.index + 1,
                candidate_counter := s.candidate_counter + 1,
                trace := s.trace ++ [s.candidate_counter + 1] }
        dsimp only at h1
        rw [step]
        exact ⟨t, h1, h2⟩

theorem trace_extend (tr : List Nat) (cc : Nat)
    (hch : List.Chain' (· ≤ ·) tr) (hle : ∀ x ∈ tr, x ≤ cc) :
    List.Chain' (· ≤ ·) (tr ++ [cc + 1]) ∧ ∀ x ∈ tr ++ [cc + 1], x ≤ cc + 1 := by
  constructor
  · rw [List.chain'_append]
    refine ⟨hch, List.chain'_singleton _, ?_⟩
    intro x hx y hy
    have hxmem : x ∈ tr := by
      obtain ⟨h, rfl⟩ := List.mem_getLast?_eq_getLast hx
      exact List.getLast_mem h
    simp only [List.head?_cons, Option.mem_def, Option.some.injEq] at hy
    have := hle x hxmem
    omega
  · intro x hx
    rcases List.mem_append.mp hx with h | h
    · have := hle x h
      omega
    · simp only [List.mem_singleton] at h
      omega

theorem ptLoop_trace_chain (n : Nat) (ceiling : Option Nat) :
    ∀ (lines : List (List Char)) (s : PTState),
      List.Chain' (· ≤ ·) s.trace →
      (∀ x ∈ s.trace, x ≤ s.candidate_counter) →
      List.Chain' (· ≤ ·) (ptLoop n ceiling lines s).trace ∧
      ∀ x ∈ (ptLoop n ceiling lines s).trace,
        x ≤ (ptLoop n ceiling lines s).candidate_counter := by
  intro lines
  induction lines with
  | nil =>
    intro s hch hle
    simp only [ptLoop]
    exact ⟨hch, hle⟩
  | cons line rest ih =>
    intro s hch hle
    obtain ⟨hch2, hle2⟩ := trace_extend s.trace s.candidate_counter hch hle
    by_cases htrig : ceiling = some (s.candidate_counter + 1)
    · have step : ptLoop n ceiling (line :: rest) s =
          { s with
            received_candidates := storeCandidate s.received_candidates s.index line,
            index := s.index + 1,
            candidate_counter := s.candidate_counter + 1,
            trace := s.trace ++ [s.candidate_counter + 1],
            events := s.events ++ [Event.kill], killed := true } := by
        simp only [ptLoop]
        rw [if_pos htrig]
      rw [step]
      exact ⟨hch2, hle2⟩
    · by_cases hfull : s.index + 1 = n
      · have step : ptLoop n ceiling (line :: rest) s =
            ptLoop n ceiling rest
              { s with
                received_candidates := storeCandidate s.received_candidates s.index line,
                index := 0,
                candidate_counter := s.candidate_counter + 1,
                trace := s.trace ++ [s.candidate_counter + 1],
                events := s.events ++
                  [Event.candidates (storeCandidate s.received_candidates s.index line)] } := by
          simp only [ptLoop]
          rw [if_neg htrig, if_pos hfull]
        rw [step]
        exact ih _ hch2 hle2
      · have step : ptLoop n ceiling (line :: rest) s =
            ptLoop n ceiling rest
              { s with
                received_candidates := storeCandidate s.received_candidates s.index line,
                index := s.index + 1,
                candidate_counter := s.candidate_counter + 1,
                trace := s.trace ++ [s.candidate_counter + 1] } := by
          simp only [ptLoop]
          rw [if_neg htrig, if_neg hfull]
        rw [step]
        exact ih _ hch2 hle2

theorem handle_close_pt_fields (n : Nat) (s : PTState) :
    (handle_close_pt n s).trace = s.trace ∧
    (handle_close_pt n s).candidate_counter = s.candidate_counter ∧
    (handle_close_pt n s).killed = s.killed := by
  unfold handle_close_pt
  by_cases h : 0 < s.index <;> simp [h]

theorem hashLoop_sc_step (ceiling : Option Nat) (line : List Char)
    (rest : List (List Char)) (last : Option (List Char)) (s : HState)
    (hsm : statusLineMatch line = false)
    (hsc : containsSub sessionCompletedPat line = true) :
    hashLoop ceiling (line :: rest) last s =
      HOut.ok { s with events := s.events ++
        (if ceiling.isSome then [Event.kill] else []) ++ [Event.report] } := by
  simp only [hashLoop]
  rw [if_pos hsm, if_pos hsc]

theorem hashLoop_ignored_step (ceiling : Option Nat) (line : List Char)
    (rest : List (List Char)) (last : Option (List Char)) (s : HState)
    (hsm : statusLineMatch line = false)
    (hsc : containsSub sessionCompletedPat line = false) :
    hashLoop ceiling (line :: rest) last s = hashLoop ceiling rest (some line) s := by
  simp only [hashLoop]
  rw [if_pos hsm, if_neg (by simp [hsc])]

theorem hashLoop_break_step (ceiling : Option Nat) (line : List Char)
    (rest : List (List Char)) (last : Option (List Char)) (s : HState)
    (hsm : statusLineMatch line = true)
    (hhit : hashCeilingHit ceiling (countOfLine line) = true) :
    hashLoop ceiling (line :: rest) last s =
      HOut.ok { candidate_counter := countOfLine line,
                trace := s.trace ++ [countOfLine line],
                events := s.events ++
                  [Event.kill, Event.statusLine line, Event.report] } := by
  simp only [hashLoop]
  rw [if_neg (by simp [hsm]), if_pos hhit]

theorem hashLoop_forward_step (ceiling : Option Nat) (line : List Char)
    (rest : List (List Char)) (last : Option (List Char)) (s : HState)
    (hsm : statusLineMatch line = true)
    (hhit : hashCeilingHit ceiling (countOfLine line) = false) :
    hashLoop ceiling (line :: rest) last s =
      hashLoop ceiling rest (some line)
        { candidate_counter := countOfLine line,
          trace := s.trace ++ [countOfLine line],
          events := s.events ++ [Event.statusLine line] } := by
  simp only [hashLoop]
  rw [if_neg (by simp [hsm]), if_neg (by simp [hhit])]

theorem hashLoop_spec (ceiling : Option Nat) :
    ∀ (lines : List (List Char)) (last : Option (List Char)) (s : HState),
      traceOf (hashLoop ceiling lines last s)
          = s.trace ++ (processedStatus ceiling lines).map countOfLine ∧
      ((lines ≠ [] ∨ last ≠ none) →
        ∃ s2 t, hashLoop ceiling lines last s = HOut.ok s2 ∧
          s2.events = s.events ++ t ++ [Event.report] ∧ Event.report ∉ t) := by
  intro lines
  induction lines with
  | nil =>
    intro last s
    match last with
    | none =>
      refine ⟨by simp [hashLoop, traceOf, processedStatus], ?_⟩
      intro h
      rcases h with h | h
      · exact absurd rfl h
      · exact absurd rfl h
    | some l =>
      refine ⟨by simp [hashLoop, traceOf, processedStatus], ?_⟩
      intro _
      exact ⟨_, [Event.statusLine l], rfl, by simp, by simp⟩
  | cons line rest ih =>
    intro last s
    by_cases hsm : statusLineMatch line = false
    · by_cases hsc : containsSub sessionCompletedPat line = true
      · rw [hashLoop_sc_step ceiling line rest last s hsm hsc]
        constructor
        · simp [traceOf, processedStatus, hsm, hsc]
        · intro _
          refine ⟨_, (if ceiling.isSome then [Event.kill] else []), rfl, by simp, ?_⟩
          by_cases hc : ceiling.isSome <;> simp [hc]
      · have hsc2 : containsSub sessionCompletedPat line = false := by
          cases h : containsSub sessionCompletedPat line
          · rfl
          · exact absurd h hsc
        rw [hashLoop_ignored_step ceiling line rest last s hsm hsc2]
        obtain ⟨ht, hok⟩ := ih (some line) s
        constructor
        · rw [ht]
          simp [processedStatus, hsm, hsc2]
        · intro _
          exact hok (Or.inr (by simp))
    · have hsm2 : statusLineMatch line = true := by
        cases h : statusLineMatch line
        · exact absurd h hsm
        · rfl
      by_cases hhit : hashCeilingHit ceiling (countOfLine line) = true
      · rw [hashLoop_break_step ceiling line rest last s hsm2 hhit]
        constructor
        · simp [traceOf, processedStatus, hsm2, hhit]
        · intro _
          exact ⟨_, [Event.kill, Event.statusLine line], rfl, by simp, by simp⟩
      · have hhit2 : hashCeilingHit ceiling (countOfLine line) = false := by
          cases h : hashCeilingHit ceiling (countOfLine line)
          · rfl
          · exact absurd h hhit
        rw [hashLoop_forward_step ceiling line rest last s hsm2 hhit2]
        obtain ⟨ht, hok⟩ :=
          ih (some line)
            { candidate_counter := countOfLine line,
              trace := s.trace ++ [countOfLine line],
              events := s.events ++ [Event.statusLine line] }
        constructor
        · rw [ht]
          dsimp only
          simp [processedStatus, hsm2, hhit2]
        · intro _
          obtain ⟨s2, t, h1, h2, h3⟩ := hok (Or.inr (by simp))
          dsimp only at h2
          refine ⟨s2, Event.statusLine line :: t, h1, ?_, by simp [h3]⟩
          rw [h2]
          simp

theorem processedStatus_front (ceiling : Option Nat) :
    ∀ lines : List (List Char),
      processedStatus ceiling lines <+: lines.filter statusLineMatch := by
  intro lines
  induction lines with
  | nil =>
    simp [processedStatus]
  | cons line rest ih =>
    by_cases hsm : statusLineMatch line = false
    · have hf : (line :: rest).filter statusLineMatch = rest.filter statusLineMatch := by
        simp [List.filter_cons, hsm]
      rw [hf]
      by_cases hsc : containsSub sessionCompletedPat line = true
      · have hp : processedStatus ceiling (line :: rest) = [] := by
          simp [processedStatus, hsm, hsc]
        rw [hp]
        exact List.nil_prefix
      · have hp : processedStatus ceiling (line :: rest) = processedStatus ceiling rest := by
          simp only [processedStatus]
          rw [if_pos hsm, if_neg hsc]
        rw [hp]
        exact ih
    · have hsm2 : statusLineMatch line = true := by
        cases h : statusLineMatch line
        · exact absurd h hsm
        · rfl
      have hf : (line :: rest).filter statusLineMatch
          = line :: rest.filter statusLineMatch := by
        simp [List.filter_cons, hsm2]
      rw [hf]
      by_cases hhit : hashCeilingHit ceiling (countOfLine line) = true
      · have hp : processedStatus ceiling (line :: rest) = [line] := by
          simp [processedStatus, hsm2, hhit]
        rw [hp]
        exact ⟨rest.filter statusLineMatch, rfl⟩
      · have hp : processedStatus ceiling (line :: rest)
            = line :: processedStatus ceiling rest := by
          simp [processedStatus, hsm2, hhit]
        rw [hp]
        obtain ⟨t, htt⟩ := ih
        exact ⟨t, by rw [List.cons_append, htt]⟩

/-- C1: in plaintext mode, for every batch interval n >= 1 and finite input
stream whose configured ceiling (if any) is never reached, the analysis
strategy receives exactly ceil(m/n) calls to process_candidates (the last
possibly being the trimmed remainder), and the concatenation of all
received batches is exactly the stored candidate sequence (each input line
with its final character dropped, per `candidate[:-1]`) in order, with no
duplicates and no stale `None`-or-previous-cycle slots. -/
theorem C1_plaintext_batching (n : Nat) (ceiling : Option Nat)
    (lines : List (List Char)) (hn : 1 ≤ n)
    (hnt : ∀ c, ceiling = some c → c = 0 ∨ lines.length < c) :
    (candidateBatches (execute_plaintext n ceiling lines).events).length
        = (lines.length + n - 1) / n ∧
    (candidateBatches (execute_plaintext n ceiling lines).events).flatten
        = lines.map (fun l => some l.dropLast) ∧
    (execute_plaintext n ceiling lines).killed = false := by
  obtain ⟨B, h1, h2, h3, h4, h5, h6, h7⟩ :=
    ptLoop_no_trigger n ceiling lines (ptInitState n)
      (by simp [ptInitState]) (by exact hn)
      (by
        intro c hc h
        obtain ⟨ha, hb⟩ := h
        have := hnt c hc
        simp only [ptInitState] at ha hb
        omega)
  have e0 : (ptInitState n).events = [] := rfl
  have e1 : (ptInitState n).index = 0 := rfl
  have e3 : (ptInitState n).killed = false := rfl
  rw [e0, candidateBatches_nil, List.nil_append] at h1
  rw [e1] at h2 h3 h4
  simp only [List.take_zero, List.nil_append] at h2
  simp only [Nat.zero_add] at h3 h4
  rw [e3] at h7
  unfold execute_plaintext
  simp only [handle_close_pt]
  by_cases hpos : 0 < (ptLoop n ceiling lines (ptInitState n)).index
  · have hmn : lines.length % n ≠ 0 := by
      rw [h4] at hpos
      omega
    have htrim :
        trimBuf (ptLoop n ceiling lines (ptInitState n)).received_candidates n
            (ptLoop n ceiling lines (ptInitState n)).index
          = (ptLoop n ceiling lines (ptInitState n)).received_candidates.take
              (ptLoop n ceiling lines (ptInitState n)).index := by
      refine trimBuf_eq_take _ _ _ h5 ?_
      rw [h4]
      exact le_of_lt (Nat.mod_lt _ (by omega))
    rw [if_pos hpos]
    dsimp only
    refine ⟨?_, ?_, h7⟩
    · rw [candidateBatches_append, candidateBatches_append, h1,
        candidateBatches_report, candidateBatches_candidates]
      simp only [List.append_nil, List.length_append, List.length_singleton]
      rw [h3, ceil_div_split n lines.length (by omega), if_neg hmn]
    · rw [candidateBatches_append, candidateBatches_append, h1,
        candidateBatches_report, candidateBatches_candidates]
      simp only [List.append_nil, List.flatten_append, List.flatten_cons,
        List.flatten_nil]
      rw [htrim]
      simpa using h2
  · have hz : (ptLoop n ceiling lines (ptInitState n)).index = 0 := by omega
    have hmn : lines.length % n = 0 := by
      rw [hz] at h4
      omega
    rw [if_neg hpos]
    refine ⟨?_, ?_, h7⟩
    · rw [candidateBatches_append, h1, candidateBatches_report]
      simp only [List.append_nil]
      rw [h3, ceil_div_split n lines.length (by omega), if_pos hmn, Nat.add_zero]
    · rw [candidateBatches_append, h1, candidateBatches_report]
      simp only [List.append_nil]
      rw [hz] at h2
      simpa using h2

theorem C1_plaintext_batching_witness :
    (candidateBatches (execute_plaintext 2 none
        [String.toList "a\n", String.toList "b\n", String.toList "c\n"]).events).length
      = ([String.toList "a\n", String.toList "b\n", String.toList "c\n"].length + 2 - 1) / 2 ∧
    (candidateBatches (execute_plaintext 2 none
        [String.toList "a\n", String.toList "b\n", String.toList "c\n"]).events).flatten
      = [String.toList "a\n", String.toList "b\n", String.toList "c\n"].map
          (fun l => some l.dropLast) ∧
    (execute_plaintext 2 none
        [String.toList "a\n", String.toList "b\n", String.toList "c\n"]).killed = false :=
  C1_plaintext_batching 2 none
    [String.toList "a\n", String.toList "b\n", String.toList "c\n"]
    (by omega) (fun c hc => nomatch hc)

/-- C2: in plaintext mode with a configured ceiling c with 1 <= c <= m, the
read loop breaks exactly when the lifetime counter equals c (no overshoot),
the guesser is killed, and across all process_candidates calls at most c
(in fact exactly c) buffer slots are forwarded in total. -/
theorem C2_plaintext_ceiling (n c : Nat) (lines : List (List Char))
    (hn : 1 ≤ n) (hc : 1 ≤ c) (hcm : c ≤ lines.length) :
    (execute_plaintext n (some c) lines).killed = true ∧
    (execute_plaintext n (some c) lines).candidate_counter = c ∧
    totalForwarded (execute_plaintext n (some c) lines).events ≤ c := by
  obtain ⟨g1, g2, g3, g4, g5, B, h1, h2⟩ :=
    ptLoop_trigger n c lines (ptInitState n)
      (by simp [ptInitState]) (by exact hn)
      (by
        show (0 : Nat) < c
        omega)
      (by
        show c ≤ 0 + lines.length
        omega)
  have e0 : (ptInitState n).events = [] := rfl
  rw [e0, candidateBatches_nil, List.nil_append] at h1
  have e1 : (ptInitState n).index = 0 := rfl
  have e2 : (ptInitState n).candidate_counter = 0 := rfl
  rw [e1, e2] at h2
  simp only [Nat.zero_add, Nat.sub_zero] at h2
  obtain ⟨f1, f2, f3⟩ := handle_close_pt_fields n (ptLoop n (some c) lines (ptInitState n))
  unfold execute_plaintext
  refine ⟨by rw [f3, g1], by rw [f2, g2], ?_⟩
  simp only [handle_close_pt]
  rw [if_pos g4]
  dsimp only
  unfold totalForwarded
  rw [candidateBatches_append, candidateBatches_append, h1,
    candidateBatches_report, candidateBatches_candidates]
  have htrim :
      trimBuf (ptLoop n (some c) lines (ptInitState n)).received_candidates n
          (ptLoop n (some c) lines (ptInitState n)).index
        = (ptLoop n (some c) lines (ptInitState n)).received_candidates.take
            (ptLoop n (some c) lines (ptInitState n)).index :=
    trimBuf_eq_take _ _ _ g3 g5
  have hlen :
      ((ptLoop n (some c) lines (ptInitState n)).received_candidates.take
          (ptLoop n (some c) lines (ptInitState n)).index).length
        = (ptLoop n (some c) lines (ptInitState n)).index := by
    rw [List.length_take, g3]
    omega
  rw [htrim]
  simp only [List.append_nil, List.map_append, List.map_cons, List.map_nil,
    List.sum_append, List.sum_cons, List.sum_nil]
  rw [hlen]
  omega

theorem C2_plaintext_ceiling_witness :
    (execute_plaintext 2 (some 2)
        [String.toList "a\n", String.toList "b\n", String.toList "c\n"]).killed = true ∧
    (execute_plaintext 2 (some 2)
        [String.toList "a\n", String.toList "b\n", String.toList "c\n"]).candidate_counter
      = 2 ∧
    totalForwarded (execute_plaintext 2 (some 2)
        [String.toList "a\n", String.toList "b\n", String.toList "c\n"]).events ≤ 2 :=
  C2_plaintext_ceiling 2 2
    [String.toList "a\n", String.toList "b\n", String.toList "c\n"]
    (by omega) (by omega) (by decide)

theorem attemptKills_ok (fails : Nat → Bool) :
    ∀ l : List Nat, (∀ p ∈ l, fails p = false) → attemptKills fails l = (l, false) := by
  intro l
  induction l with
  | nil =>
    intro _
    rfl
  | cons p rest ih =>
    intro h
    have hp : fails p = false := h p (by simp)
    simp only [attemptKills]
    rw [if_neg (by simp [hp]), ih (fun q hq => h q (by simp [hq]))]

theorem attemptKills_abort (fails : Nat → Bool) :
    ∀ (a : List Nat) (p : Nat) (b : List Nat), fails p = true →
      (∀ q ∈ a, fails q = false) →
      attemptKills fails (a ++ p :: b) = (a ++ [p], true) := by
  intro a
  induction a with
  | nil =>
    intro p b hp _
    simp only [List.nil_append, attemptKills]
    rw [if_pos hp]
  | cons q rest ih =>
    intro p b hp hq
    have hqf : fails q = false := hq q (by simp)
    simp only [List.cons_append, attemptKills, List.append_eq]
    rw [if_neg (by simp [hqf]), ih p b hp (fun r hr => hq r (by simp [hr]))]

/-- C3 counterexample: in hash mode with ceiling 1, the example progress line
fires the ceiling, the guesser is killed and the loop breaks, but the
`break` falls through to `handle_close(last_line=line)` which DOES forward
the triggering line to `process_status_line` — refuting the claim that the
final triggering line is never forwarded. -/
theorem C3_counterexample :
    Event.statusLine exJtrLine ∈ eventsOf (execute_hash (some 1) [exJtrLine]) := by
  decide

/-- C3 amended: when a progress line's parsed coarse count reaches the
configured ceiling, ProcessTerminator is invoked and the read loop stops
without forwarding the line from inside the loop; however the post-loop
`handle_close(last_line=line)` then forwards that triggering line once to
`process_status_line` (after the kill, before `gen_report`). -/
theorem C3_hash_ceiling_amended (c : Nat) (line : List Char)
    (rest : List (List Char)) (last : Option (List Char)) (s : HState)
    (hsm : statusLineMatch line = true)
    (hge : c ≤ countOfLine line) :
    hashLoop (some c) (line :: rest) last s =
      HOut.ok { candidate_counter := countOfLine line,
                trace := s.trace ++ [countOfLine line],
                events := s.events ++
                  [Event.kill, Event.statusLine line, Event.report] } :=
  hashLoop_break_step (some c) line rest last s hsm
    (by simp only [hashCeilingHit, decide_eq_true_eq]; omega)

theorem C3_hash_ceiling_amended_witness :
    hashLoop (some 1) [exJtrLine] none hashInitState =
      HOut.ok { candidate_counter := countOfLine exJtrLine,
                trace := hashInitState.trace ++ [countOfLine exJtrLine],
                events := hashInitState.events ++
                  [Event.kill, Event.statusLine exJtrLine, Event.report] } :=
  C3_hash_ceiling_amended 1 exJtrLine [] none hashInitState (by decide) (by decide)

/-- C4 counterexample: on the empty hash-mode stream the run aborts
(unbound loop variable, see C10) and gen_report is never called, so
gen_report is NOT invoked exactly once on every run / termination path. -/
theorem C4_counterexample :
    (eventsOf (execute_hash none [])).count Event.report ≠ 1 := by
  decide

/-- C4 amended: gen_report is invoked exactly once, as the last observable
call (hence after all process_candidates / process_status_line calls), on
every plaintext run and on every hash run with at least one input line;
the one exception is the empty hash-mode stream, which aborts before
gen_report is reached. -/
theorem C4_report_once_amended (ceiling : Option Nat) (lines : List (List Char))
    (h : lines ≠ []) :
    (∃ s2, execute_hash ceiling lines = HOut.ok s2 ∧
      s2.events.count Event.report = 1 ∧
      s2.events.getLast? = some Event.report) ∧
    ∀ (n : Nat) (ceiling2 : Option Nat) (lines2 : List (List Char)),
      (execute_plaintext n ceiling2 lines2).events.count Event.report = 1 ∧
      (execute_plaintext n ceiling2 lines2).events.getLast? = some Event.report := by
  constructor
  · obtain ⟨_, hok⟩ := hashLoop_spec ceiling lines none hashInitState
    obtain ⟨s2, t, h1, h2, h3⟩ := hok (Or.inl h)
    have e : hashInitState.events = [] := rfl
    rw [e, List.nil_append] at h2
    refine ⟨s2, h1, ?_, ?_⟩
    · rw [h2, List.count_append, List.count_eq_zero.mpr h3]
      rfl
    · rw [h2, List.getLast?_concat]
  · intro n ceiling2 lines2
    obtain ⟨t, h1, h2⟩ := ptLoop_events_no_report n ceiling2 lines2 (ptInitState n)
    have e : (ptInitState n).events = [] := rfl
    rw [e, List.nil_append] at h1
    unfold execute_plaintext
    simp only [handle_close_pt]
    by_cases hpos : 0 < (ptLoop n ceiling2 lines2 (ptInitState n)).index
    · rw [if_pos hpos]
      dsimp only
      rw [h1]
      constructor
      · rw [List.count_append, List.count_append, List.count_eq_zero.mpr h2,
          List.count_eq_zero.mpr (by simp : Event.report ∉
            [Event.candidates (trimBuf
              (ptLoop n ceiling2 lines2 (ptInitState n)).received_candidates n
              (ptLoop n ceiling2 lines2 (ptInitState n)).index)])]
        rfl
      · rw [List.getLast?_concat]
    · rw [if_neg hpos]
      rw [h1]
      constructor
      · rw [List.count_append, List.count_eq_zero.mpr h2]
        rfl
      · rw [List.getLast?_concat]

theorem C4_report_once_amended_witness :
    (∃ s2, execute_hash none [String.toList "any line"] = HOut.ok s2 ∧
      s2.events.count Event.report = 1 ∧
      s2.events.getLast? = some Event.report) ∧
    ∀ (n : Nat) (ceiling2 : Option Nat) (lines2 : List (List Char)),
      (execute_plaintext n ceiling2 lines2).events.count Event.report = 1 ∧
      (execute_plaintext n ceiling2 lines2).events.getLast? = some Event.report :=
  C4_report_once_amended none [String.toList "any line"] (by simp)

/-- C5 counterexample: for root pid 1 whose descendant enumeration yields
[2, 3, 4, 5] (two direct children, each with one child), a failing
`os.kill` on pid 3 escapes the children loop to the outer `except Exception`
handler, so only 2 kill signals are attempted instead of 5 — refuting the
claim that one failure does not abort the killing of the rest. -/
theorem C5_counterexample :
    ¬ ((kill_guesser 1
        { lookupOk := true, childrenOk := true,
          descendants := [2, 3, 4, 5], killFails := fun p => p == 3 }).length = 5) := by
  decide

/-- C5 amended: when the process lookup and child enumeration succeed and no
individual kill fails, kill signals are attempted for exactly the
descendants, in order, followed by the root (5 signals for the 4-descendant
tree); but if the kill of one descendant fails, the exception is absorbed
by the outer handler and the remaining kills, including the root kill, are
skipped. -/
theorem C5_kill_amended (root : Nat) (cfg : KillConfig)
    (h1 : cfg.lookupOk = true) (h2 : cfg.childrenOk = true) :
    ((∀ p ∈ cfg.descendants, cfg.killFails p = false) →
      kill_guesser root cfg = cfg.descendants ++ [root]) ∧
    (∀ a p b, cfg.descendants = a ++ p :: b → cfg.killFails p = true →
      (∀ q ∈ a, cfg.killFails q = false) →
      kill_guesser root cfg = a ++ [p]) := by
  constructor
  · intro hall
    simp only [kill_guesser]
    rw [if_neg (by simp [h1]), if_neg (by simp [h2]),
      attemptKills_ok cfg.killFails cfg.descendants hall]
    simp
  · intro a p b hd hf hq
    simp only [kill_guesser]
    rw [if_neg (by simp [h1]), if_neg (by simp [h2]), hd,
      attemptKills_abort cfg.killFails a p b hf hq]
    simp

theorem C5_kill_amended_witness :
    kill_guesser 1
      { lookupOk := true, childrenOk := true,
        descendants := [2, 3, 4, 5], killFails := fun _ => false } = [2, 3, 4, 5, 1] :=
  (C5_kill_amended 1
    { lookupOk := true, childrenOk := true, descendants := [2, 3, 4, 5],
      killFails := fun _ => false } rfl rfl).1 (fun _ _ => rfl)

/-- C6: a hash-mode line containing "Session completed" that does not match
the progress pattern classifies as SessionComplete; when the loop reaches
it, kill_guesser is invoked if and only if a termination ceiling is
configured, the line itself is never forwarded to process_status_line
(finalization runs `handle_close()` with no last line, so only previously
forwarded progress lines have been handed over), and processing stops:
the rest of the stream is never read. -/
theorem C6_session_complete (ceiling : Option Nat) (line : List Char)
    (rest : List (List Char)) (last : Option (List Char)) (s : HState)
    (hsc : containsSub sessionCompletedPat line = true)
    (hsm : statusLineMatch line = false) :
    classify line = LineClass.SessionComplete ∧
    hashLoop ceiling (line :: rest) last s =
      HOut.ok { s with events := s.events ++
        (if ceiling.isSome then [Event.kill] else []) ++ [Event.report] } := by
  constructor
  · unfold classify
    rw [if_neg (by simp [hsm]), if_pos hsc]
  · exact hashLoop_sc_step ceiling line rest last s hsm hsc

theorem C6_session_complete_witness :
    classify (String.toList "Session completed") = LineClass.SessionComplete ∧
    hashLoop (some 5) [String.toList "Session completed"] none hashInitState =
      HOut.ok { hashInitState with events := hashInitState.events ++
        (if (some 5 : Option Nat).isSome then [Event.kill] else []) ++ [Event.report] } :=
  C6_session_complete (some 5) (String.toList "Session completed") [] none hashInitState
    (by decide) (by decide)

/-- C7: the example JtR line classifies as Progress; its `<digits>p` field
`4008p` is coarsened by `temp[:-4] + '000'` to 4000 (rounded down to the
nearest thousand), and 4000 is exactly the value the termination guard
compares against the ceiling (a ceiling of 4000 fires, 4001 does not). -/
theorem C7_progress_line_coarsening :
    classify exJtrLine = LineClass.Progress 4000 ∧
    statusLineMatch exJtrLine = true ∧
    countOfLine exJtrLine = 4000 ∧
    hashCeilingHit (some 4000) (countOfLine exJtrLine) = true ∧
    hashCeilingHit (some 4001) (countOfLine exJtrLine) = false := by
  decide

/-- C8 counterexample: a line that does not end with a newline is NOT stored
unchanged: `candidate[:-1]` removes its final character regardless, so the
line "abc" is stored as "ab", not as the spec-side newline-stripped value
"abc". -/
theorem C8_counterexample :
    storeCandidate [none] 0 (String.toList "abc")
      ≠ [some (specStripNewline (String.toList "abc"))] := by
  decide

/-- C8 amended: the candidate stored in the buffer is always the line with
its final character removed (`candidate[:-1]`): for a line ending in a
newline this equals the newline-stripped line, but a final line without a
trailing newline also loses its last character. -/
theorem C8_store_amended (buf : List (Option (List Char))) (i : Nat)
    (line : List Char) (h : i < buf.length) :
    (storeCandidate buf i line)[i]? = some (some line.dropLast) ∧
    (line.getLast? = some '\n' → specStripNewline line = line.dropLast) := by
  constructor
  · unfold storeCandidate
    rw [List.getElem?_set_self]
    exact h
  · intro h2
    unfold specStripNewline
    rw [if_pos h2]

theorem C8_store_amended_witness :
    (storeCandidate [none] 0 (String.toList "pw\n"))[0]?
        = some (some (String.toList "pw\n").dropLast) ∧
    ((String.toList "pw\n").getLast? = some '\n' →
      specStripNewline (String.toList "pw\n") = (String.toList "pw\n").dropLast) :=
  C8_store_amended [none] 0 (String.toList "pw\n") (by decide)

/-- C9 counterexample: in hash mode the counter is a plain assignment from
the parsed coarse count, so a stream whose progress counts decrease makes
the counter decrease: on lines reporting 5000p then 2000p the counter value
sequence is [5000, 2000], which is not non-decreasing — refuting the claim
that the counter is monotonically non-decreasing for every input stream. -/
theorem C9_counterexample :
    ¬ List.Chain' (· ≤ ·)
        (traceOf (execute_hash none
          [String.toList "5g 5000p", String.toList "2g 2000p"])) := by
  intro h
  have ht : traceOf (execute_hash none
      [String.toList "5g 5000p", String.toList "2g 2000p"]) = [5000, 2000] := by
    decide
  rw [ht] at h
  rcases List.chain'_cons.mp h with ⟨hle, _⟩
  omega

/-- C9 amended: the plaintext counter is incremented by one per candidate,
so its value sequence is non-decreasing on every stream; the hash counter is
assigned the most recently parsed coarse count, so its value sequence is
non-decreasing exactly under the assumption that the coarse counts parsed
from the stream's progress lines are non-decreasing.  Both counters are
reset only at the start of `execute`. -/
theorem C9_monotonic_amended (ceiling : Option Nat) (lines : List (List Char))
    (hmono : List.Chain' (· ≤ ·)
      ((lines.filter statusLineMatch).map countOfLine)) :
    List.Chain' (· ≤ ·) (traceOf (execute_hash ceiling lines)) ∧
    ∀ (n : Nat) (ceiling2 : Option Nat) (lines2 : List (List Char)),
      List.Chain' (· ≤ ·) (execute_plaintext n ceiling2 lines2).trace := by
  constructor
  · obtain ⟨ht, _⟩ := hashLoop_spec ceiling lines none hashInitState
    unfold execute_hash
    rw [ht]
    have e : hashInitState.trace = [] := rfl
    rw [e, List.nil_append]
    exact List.Chain'.prefix hmono
      (List.IsPrefix.map countOfLine (processedStatus_front ceiling lines))
  · intro n ceiling2 lines2
    obtain ⟨hch, _⟩ := ptLoop_trace_chain n ceiling2 lines2 (ptInitState n)
      (by simp [ptInitState]) (by intro x hx; simp [ptInitState] at hx)
    unfold execute_plaintext
    rw [(handle_close_pt_fields n (ptLoop n ceiling2 lines2 (ptInitState n))).1]
    exact hch

theorem C9_monotonic_amended_witness :
    List.Chain' (· ≤ ·) (traceOf (execute_hash none
      [String.toList "1g 1000p", String.toList "2g 2000p"])) ∧
    ∀ (n : Nat) (ceiling2 : Option Nat) (lines2 : List (List Char)),
      List.Chain' (· ≤ ·) (execute_plaintext n ceiling2 lines2).trace :=
  C9_monotonic_amended none
    [String.toList "1g 1000p", String.toList "2g 2000p"]
    (by
      have e : (List.filter statusLineMatch
          [String.toList "1g 1000p", String.toList "2g 2000p"]).map countOfLine
            = [1000, 2000] := by decide
      rw [e]
      exact List.chain'_cons.mpr ⟨by omega, List.chain'_singleton _⟩)

/-- C10: in hash mode the empty input stream never binds the loop variable
`line`, so the end-of-stream call `handle_close(last_line=line)` raises
`UnboundLocalError`: the run aborts with an error (HOut.err) and gen_report
is never invoked. -/
theorem C10_hash_empty_stream (ceiling : Option Nat) :
    execute_hash ceiling [] = HOut.err hashInitState ∧
    ∀ e ∈ eventsOf (execute_hash ceiling []), e ≠ Event.report := by
  constructor
  · rfl
  · intro e he
    simp only [execute_hash, hashLoop, eventsOf, hashInitState] at he
    exact absurd he (List.not_mem_nil e)
